import Mathlib

/-
Verification development for the virtual-folder service of this repository.

The Go source is shallowly embedded: pure helpers become Lean functions,
stateful code is modelled by explicit state passing, and side effects
(cache access, block pulls, index updates, event emission, queue
bookkeeping) are recorded as explicit effect traces.  Byte strings are
modelled as `List Nat` (each entry `< 256` where it matters) and Go
strings as `List Char`.
-/

namespace SyncthingVF

/-! ## Blob backend: the in-memory hashed block map (lib/blockstorage) -/

/-- ASCII code of the lowercase hex digit for `n < 16`, as produced by Go's
`hex.EncodeToString` (digits `0`-`9` then `a`-`f`). -/
def hexDigitCode (n : Nat) : Nat :=
  if n < 10 then 48 + n else 87 + n

/-- Hex encoding of a byte string, two lowercase hex digits per byte,
modelling Go's `hex.EncodeToString`. -/
def hexEncode : List Nat → List Nat
  | [] => []
  | b :: bs => hexDigitCode (b / 16) :: hexDigitCode (b % 16) :: hexEncode bs

/-- Embedding of `hashToStringMapKey` from the blockstorage package: the map
key for a hash is its hex encoding. -/
def hashToStringMapKey (hash : List Nat) : List Nat :=
  hexEncode hash

/-- Embedding of `HashedBlockMapInMemory`: a Go `map[string][]byte` is
modelled as a function from keys to optional values. -/
structure HashedBlockMapInMemory where
  blockMap : List Nat → Option (List Nat)

/-- Embedding of `NewHashedBlockMapInMemory`: the empty map. -/
def NewHashedBlockMapInMemory : HashedBlockMapInMemory :=
  ⟨fun _ => none⟩

/-- Embedding of `HashedBlockMapInMemory.Get`. -/
def HashedBlockMapInMemory.Get (hm : HashedBlockMapInMemory) (hash : List Nat) :
    Option (List Nat) :=
  hm.blockMap (hashToStringMapKey hash)

/-- Embedding of `HashedBlockMapInMemory.Set`. -/
def HashedBlockMapInMemory.Set (hm : HashedBlockMapInMemory) (hash data : List Nat) :
    HashedBlockMapInMemory :=
  ⟨fun k => if k = hashToStringMapKey hash then some data else hm.blockMap k⟩

/-- Embedding of `HashedBlockMapInMemory.Delete`. -/
def HashedBlockMapInMemory.Delete (hm : HashedBlockMapInMemory) (hash : List Nat) :
    HashedBlockMapInMemory :=
  ⟨fun k => if k = hashToStringMapKey hash then none else hm.blockMap k⟩

/-- One operation against the in-memory block map. -/
inductive CacheOp where
  | get (hash : List Nat)
  | set (hash data : List Nat)
  | del (hash : List Nat)

/-- Apply one operation to the map (`get` leaves the state unchanged). -/
def applyOp (hm : HashedBlockMapInMemory) : CacheOp → HashedBlockMapInMemory
  | .get _ => hm
  | .set h d => hm.Set h d
  | .del h => hm.Delete h

/-- Apply a sequence of operations, left to right. -/
def applyOps (ops : List CacheOp) (hm : HashedBlockMapInMemory) : HashedBlockMapInMemory :=
  ops.foldl applyOp hm

/-- All entries of the list are bytes, i.e. below 256. -/
def validBytes (l : List Nat) : Bool :=
  l.all (fun b => decide (b < 256))

/-- The operation does not touch the hash `h`: it is a read, or a write to a
different (valid) hash. -/
def opAvoids (h : List Nat) : CacheOp → Bool
  | .get _ => true
  | .set h' _ => validBytes h' && decide (h' ≠ h)
  | .del h' => validBytes h' && decide (h' ≠ h)

/-! ## Fetch coordinator and background download worker (virtual folder) -/

/-- Block metadata as consumed by the worker loop: only the hash is
consulted. -/
structure BlockInfo where
  hash : List Nat
deriving DecidableEq

/-- File record from the index: name and ordered block list (the fields the
worker loop reads). -/
structure FileInfo where
  name : List Char
  blocks : List BlockInfo
deriving DecidableEq

/-- Truncated file record as visited by `WithNeedTruncated` during `Scan`. -/
structure FileIntf where
  name : List Char
  size : Int
  modTime : Int
  isDirectory : Bool

/-- An index snapshot: `GetGlobal` lookups plus the list of needed entries
that `WithNeedTruncated` iterates, in iteration order. -/
structure Snapshot where
  getGlobal : List Char → Option FileInfo
  needed : List FileIntf

/-- Payload of the `LocalIndexUpdated` event. -/
structure EventPayload where
  folder : List Char
  items : Nat
  filenames : List (List Char)
  sequence : Int
  version : Int
deriving DecidableEq

/-- Observable side effects of the folder service, recorded in traces. -/
inductive Eff where
  | snapAcquire
  | snapRelease
  | cacheGet (hash : List Nat)
  | pullBlock (hash : List Nat)
  | cacheSet (hash data : List Nat)
  | updateOne (name : List Char)
  | seqRead
  | emit (payload : EventPayload)
  | jobDone (name : List Char)
  | requestBgDl (name : List Char) (size modTime : Int)
deriving DecidableEq

/-- The block cache, abstracted over its backend: hash to optional data. -/
def Cache := List Nat → Option (List Nat)

/-- Store a block in the cache. -/
def cacheStore (c : Cache) (h d : List Nat) : Cache :=
  fun k => if k = h then some d else c k

/-- The consumed `pullBlockBase` capability: given snapshot, file and block,
either the pulled bytes or a failure. -/
def Pull := Snapshot → FileInfo → BlockInfo → Option (List Nat)

/-- Embedding of `GetBlockDataFromCacheOrDownload`: check the cache; on a
miss issue one `pullBlockBase` call, store the result on success.  Returns
the new cache, the effect trace, and the `(data, ok)` result as an
`Option`. -/
def GetBlockDataFromCacheOrDownload (pull : Pull) (c : Cache) (snap : Snapshot)
    (file : FileInfo) (block : BlockInfo) :
    Cache × List Eff × Option (List Nat) :=
  match c block.hash with
  | some data => (c, [.cacheGet block.hash], some data)
  | none =>
    match pull snap file block with
    | none => (c, [.cacheGet block.hash, .pullBlock block.hash], none)
    | some d =>
      (cacheStore c block.hash d,
        [.cacheGet block.hash, .pullBlock block.hash, .cacheSet block.hash d], some d)

/-- The worker's per-file block loop (`for _, bi := range fi.Blocks`):
fetch every block, collecting the per-block `ok` results. -/
def processBlocks (pull : Pull) (snap : Snapshot) (file : FileInfo) (c : Cache) :
    List BlockInfo → Cache × List Eff × List Bool
  | [] => (c, [], [])
  | b :: bs =>
    let r := GetBlockDataFromCacheOrDownload pull c snap file b
    let rest := processBlocks pull snap file r.1 bs
    (rest.1, r.2.1 ++ rest.2.1, r.2.2.isSome :: rest.2.2)

/-- Embedding of the per-job closure inside `Serve_backgroundDownloadTask`:
acquire a snapshot (abort on error), look up the job in the global index
(abort when absent), fetch every block, and only when all fetches succeeded
publish `UpdateOne` and emit `LocalIndexUpdated`; the deferred
`Done(job)` runs on every exit path.  `seqAfter` is the local-device
sequence as read by `fset.Sequence` after the `UpdateOne`. -/
def processOneJob (snapRes : Option Snapshot) (pull : Pull) (folderId : List Char)
    (seqAfter : Int) (c : Cache) (job : List Char) : Cache × List Eff :=
  match snapRes with
  | none => (c, [.jobDone job])
  | some snap =>
    match snap.getGlobal job with
    | none => (c, [.snapAcquire, .jobDone job])
    | some fi =>
      let r := processBlocks pull snap fi c fi.blocks
      if r.2.2.all (fun x => x) then
        (r.1, .snapAcquire :: r.2.1 ++
          [.updateOne fi.name, .seqRead,
            .emit ⟨folderId, 1, [fi.name], seqAfter, seqAfter⟩, .jobDone job])
      else
        (r.1, .snapAcquire :: r.2.1 ++ [.jobDone job])

/-- Embedding of `Scan`: acquire a snapshot (abort on error) and visit every
needed entry; directories found in the global index are adopted via
`UpdateOne`, non-directories are enqueued via `RequestBackgroundDownload`. -/
def Scan (snapRes : Option Snapshot) : List Eff :=
  match snapRes with
  | none => []
  | some snap =>
    .snapAcquire :: (snap.needed.map (fun fi =>
      if fi.isDirectory then
        match snap.getGlobal fi.name with
        | some g => [Eff.updateOne g.name]
        | none => []
      else [Eff.requestBgDl fi.name fi.size fi.modTime])).flatten

/-- The `protocol` error sentinel returned on a cache miss. -/
inductive ProtoErr where
  | errNoSuchFile
deriving DecidableEq

/-- Embedding of `GetHashBlockData`: look the hash up in the cache only; on a
miss return `(0, ErrNoSuchFile)`, on a hit copy
`min (buffer length) (data length)` bytes into the buffer.  Returns the
buffer after the copy, the byte count, the error, and the effect trace. -/
def GetHashBlockData (c : Cache) (hash : List Nat) (buf : List Nat) :
    List Nat × Nat × Option ProtoErr × List Eff :=
  match c hash with
  | none => (buf, 0, some .errNoSuchFile, [.cacheGet hash])
  | some data =>
    let n := min buf.length data.length
    (data.take n ++ buf.drop n, n, none, [.cacheGet hash])

/-! ## Job queue and wakeup channel -/

/-- A queued prefetch job: name, size and modification time. -/
structure Job where
  name : List Char
  size : Int
  modTime : Int
deriving DecidableEq

/-- Modelled from the spec: the `jobQueue` type is not part of the sources
here (only its callers are); per spec section 4.C it is an insertion-order
pending list with a uniqueness index plus an in-progress set. -/
structure JobQueue where
  pending : List Job
  inProgress : List (List Char)
deriving DecidableEq

/-- Names currently pending in the queue. -/
def pendingNames (q : JobQueue) : List (List Char) :=
  q.pending.map (fun j => j.name)

/-- Modelled from the spec: `PushIfNew` appends a job unless its name is
already pending or in-progress, and reports whether a new entry was added. -/
def PushIfNew (q : JobQueue) (name : List Char) (size modTime : Int) :
    JobQueue × Bool :=
  if name ∈ pendingNames q ∨ name ∈ q.inProgress then (q, false)
  else ({ q with pending := q.pending ++ [⟨name, size, modTime⟩] }, true)

/-- Modelled from the spec: `Pop` takes the head pending job, marking its
name in-progress; it is non-blocking and returns nothing when empty. -/
def Pop (q : JobQueue) : Option ((List Char) × JobQueue) :=
  match q.pending with
  | [] => none
  | j :: rest => some (j.name, { pending := rest, inProgress := j.name :: q.inProgress })

/-- Modelled from the spec: `Done` removes the name from the in-progress
set, returning the job to the absent state. -/
def Done (q : JobQueue) (name : List Char) : JobQueue :=
  { q with inProgress := q.inProgress.filter (fun n => decide (n ≠ name)) }

/-- The folder's configured pull order for pending jobs. -/
inductive PullOrder where
  | alphabetic
  | smallestFirst
  | largestFirst
  | oldestFirst
  | newestFirst

/-- Lexicographic comparison of names. -/
def lexLE : List Char → List Char → Bool
  | [], _ => true
  | _ :: _, [] => false
  | a :: as, b :: bs => if a = b then lexLE as bs else decide (a < b)

/-- Sort key comparison induced by the configured order. -/
def jobLE : PullOrder → Job → Job → Bool
  | .alphabetic, j1, j2 => lexLE j1.name j2.name
  | .smallestFirst, j1, j2 => decide (j1.size ≤ j2.size)
  | .largestFirst, j1, j2 => decide (j2.size ≤ j1.size)
  | .oldestFirst, j1, j2 => decide (j1.modTime ≤ j2.modTime)
  | .newestFirst, j1, j2 => decide (j2.modTime ≤ j1.modTime)

/-- Insert a job into an already sorted pending list. -/
def insertJob (le : Job → Job → Bool) (j : Job) : List Job → List Job
  | [] => [j]
  | x :: xs => if le j x then j :: x :: xs else x :: insertJob le j xs

/-- Insertion sort of the pending list. -/
def sortJobs (le : Job → Job → Bool) : List Job → List Job
  | [] => []
  | x :: xs => insertJob le x (sortJobs le xs)

/-- Modelled from the spec: `SortAccordingToConfig` sorts the pending jobs
by the folder's configured order. -/
def SortAccordingToConfig (o : PullOrder) (q : JobQueue) : JobQueue :=
  { q with pending := sortJobs (jobLE o) q.pending }

/-- Queue plus the capacity-1 `backgroundDownloadPending` wakeup channel,
the channel modelled by its token count. -/
structure VFQState where
  queue : JobQueue
  chanTokens : Nat
deriving DecidableEq

/-- Non-blocking send on the capacity-1 channel (`select` with `default`):
deposit a token only when there is room. -/
def trySendWakeup (n : Nat) : Nat :=
  if n < 1 then n + 1 else n

/-- Effects of `RequestBackgroundDownload` beyond the queue push itself. -/
inductive QEff where
  | sorted
  | wakeupAttempt
deriving DecidableEq

/-- Embedding of `RequestBackgroundDownload`: push the name if new; when it
was not new return immediately, otherwise sort the queue by the configured
order and attempt a non-blocking wakeup send. -/
def RequestBackgroundDownload (o : PullOrder) (st : VFQState) (name : List Char)
    (size modTime : Int) : VFQState × List QEff :=
  let r := PushIfNew st.queue name size modTime
  if r.2 then
    ({ queue := SortAccordingToConfig o r.1, chanTokens := trySendWakeup st.chanTokens },
      [.sorted, .wakeupAttempt])
  else
    ({ st with queue := r.1 }, [])

/-! ## Backend-URL resolution in Serve -/

/-- Boolean prefix test on character lists. -/
def isPrefixOfL : List Char → List Char → Bool
  | [], _ => true
  | _ :: _, [] => false
  | a :: as, b :: bs => if a = b then isPrefixOfL as bs else false

/-- Embedding of Go's `strings.CutPrefix`. -/
def cutPref (p s : List Char) : List Char × Bool :=
  if isPrefixOfL p s then (s.drop p.length, true) else (s, false)

/-- Split off the part before and after the leftmost occurrence of `sep`,
if any (the search step underlying Go's `strings.Split`). -/
def breakOnSep (sep : List Char) : List Char → Option (List Char × List Char)
  | [] => if isPrefixOfL sep [] then some ([], ([] : List Char).drop sep.length) else none
  | c :: rest =>
    if isPrefixOfL sep (c :: rest) then some ([], (c :: rest).drop sep.length)
    else (breakOnSep sep rest).map (fun p => (c :: p.1, p.2))

/-- Fuelled splitting loop; each found separator consumes at least one
character, so `length + 1` fuel always suffices. -/
def splitN (sep : List Char) : Nat → List Char → List (List Char)
  | 0, s => [s]
  | f + 1, s =>
    match breakOnSep sep s with
    | none => [s]
    | some (x, y) => x :: splitN sep f y

/-- Embedding of Go's `strings.Split` for a non-empty separator. -/
def splitOnSep (sep s : List Char) : List (List Char) :=
  splitN sep (s.length + 1) s

/-- The `:virtual:` marker checked by `Serve`. -/
def vPref : List Char := ":virtual:".data

/-- The `:mount_at:` separator checked by `Serve`. -/
def mountSep : List Char := ":mount_at:".data

/-- Embedding of the backend-URL resolution at the top of `Serve`:
a `:virtual:`-prefixed path must split into exactly two parts around
`:mount_at:`, giving blob URL and mount path; otherwise the defaults are
derived from the folder path. -/
def serveResolveBackend (path : List Char) :
    Except (List Char) ((List Char) × (List Char)) :=
  let c := cutPref vPref path
  if c.2 then
    match splitOnSep mountSep c.1 with
    | [a, b] => .ok (a, b)
    | _ => .error "missing \":mount_at:\" in virtual descriptor".data
  else
    .ok ("file://".data ++ (path ++ "_BlobStorage".data) ++ "?no_tmp_dir=yes".data,
      path ++ "R".data)

/-- Separator occurs somewhere in the string. -/
def occursIn (sep s : List Char) : Bool :=
  s.tails.any (fun t => isPrefixOfL sep t)

/-- Separator occurs in `s` at a position strictly before `s.length -
sep.length` would allow it to be a suffix match, i.e. as a non-final
occurrence. -/
def properSubOccur (sep s : List Char) : Bool :=
  s.tails.any (fun t => isPrefixOfL sep t && decide (sep.length < t.length))

theorem hexDigitCode_inj {a b : Nat} (ha : a < 16) (hb : b < 16)
    (h : hexDigitCode a = hexDigitCode b) : a = b := by
  unfold hexDigitCode at h
  split at h <;> split at h <;> omega

theorem hexEncode_inj : ∀ {l₁ l₂ : List Nat}, validBytes l₁ = true → validBytes l₂ = true →
    hexEncode l₁ = hexEncode l₂ → l₁ = l₂
  | [], [], _, _, _ => rfl
  | [], _ :: _, _, _, h => by simp [hexEncode] at h
  | _ :: _, [], _, _, h => by simp [hexEncode] at h
  | a :: as, b :: bs, h₁, h₂, h => by
    simp only [validBytes, List.all_cons, Bool.and_eq_true, decide_eq_true_eq] at h₁ h₂
    simp only [hexEncode, List.cons.injEq] at h
    have ha : a < 256 := h₁.1
    have hb : b < 256 := h₂.1
    have e₁ : a / 16 = b / 16 := hexDigitCode_inj (by omega) (by omega) h.1
    have e₂ : a % 16 = b % 16 := hexDigitCode_inj (by omega) (by omega) h.2.1
    have : a = b := by omega
    have rest : as = bs :=
      hexEncode_inj (by simp [validBytes, List.all_eq_true] at h₁ ⊢; exact h₁.2)
        (by simp [validBytes, List.all_eq_true] at h₂ ⊢; exact h₂.2) h.2.2
    rw [this, rest]

theorem hashKey_inj {h h' : List Nat} (hv : validBytes h = true) (hv' : validBytes h' = true)
    (hne : h' ≠ h) : hashToStringMapKey h' ≠ hashToStringMapKey h := by
  intro contra
  exact hne (hexEncode_inj hv' hv contra)

theorem get_set_same (hm : HashedBlockMapInMemory) (h d : List Nat) :
    (hm.Set h d).Get h = some d := by
  simp [HashedBlockMapInMemory.Get, HashedBlockMapInMemory.Set]

theorem get_applyOps_avoid (h d : List Nat) (hv : validBytes h = true) :
    ∀ (ops : List CacheOp) (hm : HashedBlockMapInMemory),
      (∀ op ∈ ops, opAvoids h op = true) → hm.Get h = some d →
      (applyOps ops hm).Get h = some d := by
  intro ops
  induction ops with
  | nil => intro hm _ hget; exact hget
  | cons op rest ih =>
    intro hm hops hget
    have hop := hops op (List.mem_cons_self op rest)
    have hrest : ∀ o ∈ rest, opAvoids h o = true :=
      fun o ho => hops o (List.mem_cons_of_mem op ho)
    refine ih (applyOp hm op) hrest ?_
    cases op with
    | get _ => exact hget
    | set h' d' =>
      simp only [opAvoids, Bool.and_eq_true, decide_eq_true_eq] at hop
      simp only [applyOp, HashedBlockMapInMemory.Get, HashedBlockMapInMemory.Set]
      rw [if_neg (hashKey_inj hv hop.1 hop.2).symm]
      exact hget
    | del h' =>
      simp only [opAvoids, Bool.and_eq_true, decide_eq_true_eq] at hop
      simp only [applyOp, HashedBlockMapInMemory.Get, HashedBlockMapInMemory.Delete]
      rw [if_neg (hashKey_inj hv hop.1 hop.2).symm]
      exact hget

/-- C4: for the in-memory blob backend, after `Set(hash, data)` a `Get(hash)`
returns `(data, true)` as long as no `Delete(hash)` (nor a `Set` of `hash`)
intervenes — operations on other hashes do not disturb it, the hex key
encoding being injective on byte strings — and after `Delete(hash)` a
`Get(hash)` returns `(_, false)`. -/
theorem hashedBlockMap_roundTrip :
    (∀ (hm : HashedBlockMapInMemory) (h d : List Nat), (hm.Set h d).Get h = some d) ∧
    (∀ (hm : HashedBlockMapInMemory) (h d : List Nat) (ops : List CacheOp),
      validBytes h = true → (∀ op ∈ ops, opAvoids h op = true) →
      (applyOps ops (hm.Set h d)).Get h = some d) ∧
    (∀ (hm : HashedBlockMapInMemory) (h : List Nat), (hm.Delete h).Get h = none) := by
  refine ⟨get_set_same, ?_, ?_⟩
  · intro hm h d ops hv hops
    exact get_applyOps_avoid h d hv ops (hm.Set h d) hops (get_set_same hm h d)
  · intro hm h
    simp [HashedBlockMapInMemory.Get, HashedBlockMapInMemory.Delete]

theorem hashedBlockMap_roundTrip_witness :
    (applyOps [CacheOp.set [1, 2] [3], CacheOp.get [0, 255], CacheOp.del [4]]
        (NewHashedBlockMapInMemory.Set [0, 255] [9, 9])).Get [0, 255] = some [9, 9] ∧
    (NewHashedBlockMapInMemory.Delete [0, 255]).Get [0, 255] = none :=
  ⟨hashedBlockMap_roundTrip.2.1 NewHashedBlockMapInMemory [0, 255] [9, 9]
      [CacheOp.set [1, 2] [3], CacheOp.get [0, 255], CacheOp.del [4]]
      (by decide) (by decide),
    hashedBlockMap_roundTrip.2.2 NewHashedBlockMapInMemory [0, 255]⟩

theorem cacheStore_self (c : Cache) (h d : List Nat) : cacheStore c h d h = some d := by
  simp [cacheStore]

/-- C2: `GetBlockDataFromCacheOrDownload` checks the cache first; a hit
returns the cached bytes with `true` and never invokes `pullBlockBase`; a
miss issues exactly one `pullBlockBase` call, returning `(nil, false)` with
the cache unchanged on error, or storing the pulled bytes and returning
them with `true` on success. -/
theorem getBlockData_cacheThrough :
    ∀ (pull : Pull) (c : Cache) (snap : Snapshot) (fi : FileInfo) (bi : BlockInfo),
    (∀ d, c bi.hash = some d →
      GetBlockDataFromCacheOrDownload pull c snap fi bi =
        (c, [Eff.cacheGet bi.hash], some d)) ∧
    (c bi.hash = none → pull snap fi bi = none →
      GetBlockDataFromCacheOrDownload pull c snap fi bi =
        (c, [Eff.cacheGet bi.hash, Eff.pullBlock bi.hash], none)) ∧
    (∀ d, c bi.hash = none → pull snap fi bi = some d →
      GetBlockDataFromCacheOrDownload pull c snap fi bi =
        (cacheStore c bi.hash d,
          [Eff.cacheGet bi.hash, Eff.pullBlock bi.hash, Eff.cacheSet bi.hash d], some d) ∧
      cacheStore c bi.hash d bi.hash = some d) := by
  intro pull c snap fi bi
  refine ⟨?_, ?_, ?_⟩
  · intro d hd
    simp [GetBlockDataFromCacheOrDownload, hd]
  · intro hc hp
    simp [GetBlockDataFromCacheOrDownload, hc, hp]
  · intro d hc hp
    exact ⟨by simp [GetBlockDataFromCacheOrDownload, hc, hp], cacheStore_self c bi.hash d⟩

theorem getBlockData_cacheThrough_witness :
    GetBlockDataFromCacheOrDownload (fun _ _ _ => none)
        (fun k => if k = [7] then some [9] else none) ⟨fun _ => none, []⟩ ⟨['f'], []⟩ ⟨[7]⟩ =
      ((fun k => if k = [7] then some [9] else none), [Eff.cacheGet [7]], some [9]) ∧
    GetBlockDataFromCacheOrDownload (fun _ _ _ => none)
        (fun _ => none) ⟨fun _ => none, []⟩ ⟨['f'], []⟩ ⟨[7]⟩ =
      ((fun _ => none), [Eff.cacheGet [7], Eff.pullBlock [7]], none) ∧
    GetBlockDataFromCacheOrDownload (fun _ _ _ => some [5])
        (fun _ => none) ⟨fun _ => none, []⟩ ⟨['f'], []⟩ ⟨[7]⟩ =
      (cacheStore (fun _ => none) [7] [5],
        [Eff.cacheGet [7], Eff.pullBlock [7], Eff.cacheSet [7] [5]], some [5]) :=
  ⟨(getBlockData_cacheThrough (fun _ _ _ => none)
      (fun k => if k = [7] then some [9] else none) ⟨fun _ => none, []⟩ ⟨['f'], []⟩ ⟨[7]⟩).1
      [9] (by decide),
    (getBlockData_cacheThrough (fun _ _ _ => none)
      (fun _ => none) ⟨fun _ => none, []⟩ ⟨['f'], []⟩ ⟨[7]⟩).2.1 rfl rfl,
    ((getBlockData_cacheThrough (fun _ _ _ => some [5])
      (fun _ => none) ⟨fun _ => none, []⟩ ⟨['f'], []⟩ ⟨[7]⟩).2.2 [5] rfl rfl).1⟩

/-- C9: `GetHashBlockData` on a cache miss returns `(0, ErrNoSuchFile)`
and performs only the cache lookup (no `pullBlockBase`, no cache write);
on a hit it returns `(n, nil)` with `n` the minimum of the buffer length
and the stored block length, the first `n` buffer bytes replaced. -/
theorem getHashBlockData_lookup :
    ∀ (c : Cache) (hash buf : List Nat),
    (c hash = none →
      GetHashBlockData c hash buf =
        (buf, 0, some ProtoErr.errNoSuchFile, [Eff.cacheGet hash])) ∧
    (∀ d, c hash = some d →
      GetHashBlockData c hash buf =
        (d.take (min buf.length d.length) ++ buf.drop (min buf.length d.length),
          min buf.length d.length, none, [Eff.cacheGet hash])) ∧
    (∀ e ∈ (GetHashBlockData c hash buf).2.2.2, e = Eff.cacheGet hash) := by
  intro c hash buf
  refine ⟨?_, ?_, ?_⟩
  · intro hc
    simp [GetHashBlockData, hc]
  · intro d hd
    simp [GetHashBlockData, hd]
  · intro e he
    unfold GetHashBlockData at he
    cases hc : c hash <;> rw [hc] at he <;> simpa using he

theorem getHashBlockData_lookup_witness :
    GetHashBlockData (fun _ => none) [1, 2] [0, 0, 0] =
      ([0, 0, 0], 0, some ProtoErr.errNoSuchFile, [Eff.cacheGet [1, 2]]) ∧
    GetHashBlockData (fun k => if k = [1, 2] then some [7, 8] else none) [1, 2] [0, 0, 0] =
      ([7, 8].take (min 3 2) ++ [0, 0, 0].drop (min 3 2), min 3 2, none,
        [Eff.cacheGet [1, 2]]) :=
  ⟨(getHashBlockData_lookup (fun _ => none) [1, 2] [0, 0, 0]).1 rfl,
    (getHashBlockData_lookup (fun k => if k = [1, 2] then some [7, 8] else none)
      [1, 2] [0, 0, 0]).2.1 [7, 8] (by decide)⟩

theorem fetch_preserves_cached (pull : Pull) (c : Cache) (snap : Snapshot)
    (fi : FileInfo) (b : BlockInfo) (h : List Nat) (hc : (c h).isSome = true) :
    (((GetBlockDataFromCacheOrDownload pull c snap fi b).1) h).isSome = true := by
  unfold GetBlockDataFromCacheOrDownload
  cases h1 : c b.hash with
  | some d => exact hc
  | none =>
    cases h2 : pull snap fi b with
    | none => exact hc
    | some d =>
      simp only [cacheStore]
      by_cases he : h = b.hash
      · simp [he]
      · simp [he, hc]

theorem processBlocks_preserves_cached (pull : Pull) (snap : Snapshot) (fi : FileInfo) :
    ∀ (bs : List BlockInfo) (c : Cache) (h : List Nat), (c h).isSome = true →
      (((processBlocks pull snap fi c bs).1) h).isSome = true := by
  intro bs
  induction bs with
  | nil => intro c h hc; exact hc
  | cons b rest ih =>
    intro c h hc
    exact ih _ h (fetch_preserves_cached pull c snap fi b h hc)

theorem fetch_ok_cached (pull : Pull) (c : Cache) (snap : Snapshot)
    (fi : FileInfo) (b : BlockInfo)
    (h : (GetBlockDataFromCacheOrDownload pull c snap fi b).2.2.isSome = true) :
    (((GetBlockDataFromCacheOrDownload pull c snap fi b).1) b.hash).isSome = true := by
  unfold GetBlockDataFromCacheOrDownload at *
  cases h1 : c b.hash with
  | some d => simp [h1]
  | none =>
    cases h2 : pull snap fi b with
    | none => rw [h1, h2] at h; simp at h
    | some d => simp [cacheStore]

theorem fetch_has_cacheHit_trace (pull : Pull) (c : Cache) (snap : Snapshot)
    (fi : FileInfo) (b : BlockInfo) :
    Eff.cacheGet b.hash ∈ (GetBlockDataFromCacheOrDownload pull c snap fi b).2.1 := by
  unfold GetBlockDataFromCacheOrDownload
  cases c b.hash with
  | some d => simp
  | none => cases pull snap fi b <;> simp

/-- C10: the per-file block loop does not stop at a failed fetch: it calls
`GetBlockDataFromCacheOrDownload` once per block of the list (one `ok`
result and one cache probe per block), and every block whose fetch
succeeded is present in the final cache. -/
theorem blockLoop_no_early_exit :
    ∀ (pull : Pull) (snap : Snapshot) (fi : FileInfo) (c : Cache) (bs : List BlockInfo),
    (processBlocks pull snap fi c bs).2.2.length = bs.length ∧
    (∀ b ∈ bs, Eff.cacheGet b.hash ∈ (processBlocks pull snap fi c bs).2.1) ∧
    (∀ pr ∈ bs.zip (processBlocks pull snap fi c bs).2.2, pr.2 = true →
      (((processBlocks pull snap fi c bs).1) pr.1.hash).isSome = true) := by
  intro pull snap fi c bs
  induction bs generalizing c with
  | nil => exact ⟨rfl, by simp, by simp [processBlocks]⟩
  | cons b rest ih =>
    obtain ⟨ihLen, ihMem, ihZip⟩ := ih (GetBlockDataFromCacheOrDownload pull c snap fi b).1
    refine ⟨?_, ?_, ?_⟩
    · simpa [processBlocks] using ihLen
    · intro b' hb'
      rcases List.mem_cons.mp hb' with rfl | hmem
      · simp only [processBlocks, List.mem_append]
        exact Or.inl (fetch_has_cacheHit_trace pull c snap fi b')
      · simp only [processBlocks, List.mem_append]
        exact Or.inr (ihMem b' hmem)
    · intro pr hpr hok
      simp only [processBlocks, List.zip_cons_cons, List.mem_cons] at hpr
      rcases hpr with rfl | hmem
      · simp only at hok
        exact processBlocks_preserves_cached pull snap fi rest _ _
          (fetch_ok_cached pull c snap fi b hok)
      · exact ihZip pr hmem hok

theorem blockLoop_no_early_exit_witness :
    (processBlocks (fun _ _ b => if b.hash = [2] then none else some [5])
        ⟨fun _ => none, []⟩ ⟨['f'], []⟩ (fun _ => none) [⟨[2]⟩, ⟨[3]⟩]).2.2.length = 2 ∧
    Eff.cacheGet [3] ∈ (processBlocks (fun _ _ b => if b.hash = [2] then none else some [5])
        ⟨fun _ => none, []⟩ ⟨['f'], []⟩ (fun _ => none) [⟨[2]⟩, ⟨[3]⟩]).2.1 :=
  ⟨(blockLoop_no_early_exit (fun _ _ b => if b.hash = [2] then none else some [5])
      ⟨fun _ => none, []⟩ ⟨['f'], []⟩ (fun _ => none) [⟨[2]⟩, ⟨[3]⟩]).1,
    (blockLoop_no_early_exit (fun _ _ b => if b.hash = [2] then none else some [5])
      ⟨fun _ => none, []⟩ ⟨['f'], []⟩ (fun _ => none) [⟨[2]⟩, ⟨[3]⟩]).2.1 ⟨[3]⟩
      (by decide)⟩

/-- Effects a block fetch may produce: cache probe, pull, cache write. -/
def isFetchEff : Eff → Bool
  | .cacheGet _ => true
  | .pullBlock _ => true
  | .cacheSet _ _ => true
  | _ => false

theorem fetch_trace_shape (pull : Pull) (c : Cache) (snap : Snapshot)
    (fi : FileInfo) (b : BlockInfo) :
    ∀ e ∈ (GetBlockDataFromCacheOrDownload pull c snap fi b).2.1, isFetchEff e = true := by
  intro e he
  unfold GetBlockDataFromCacheOrDownload at he
  cases h1 : c b.hash with
  | some d =>
    rw [h1] at he
    simp only [List.mem_singleton] at he
    subst he; rfl
  | none =>
    rw [h1] at he
    cases h2 : pull snap fi b with
    | none =>
      rw [h2] at he
      rcases List.mem_cons.mp he with rfl | he'
      · rfl
      · simp only [List.mem_singleton] at he'; subst he'; rfl
    | some d =>
      rw [h2] at he
      rcases List.mem_cons.mp he with rfl | he'
      · rfl
      · rcases List.mem_cons.mp he' with rfl | he''
        · rfl
        · simp only [List.mem_singleton] at he''; subst he''; rfl

theorem blocks_trace_shape (pull : Pull) (snap : Snapshot) (fi : FileInfo) :
    ∀ (bs : List BlockInfo) (c : Cache),
      ∀ e ∈ (processBlocks pull snap fi c bs).2.1, isFetchEff e = true := by
  intro bs
  induction bs with
  | nil => intro c e he; simp [processBlocks] at he
  | cons b rest ih =>
    intro c e he
    simp only [processBlocks, List.mem_append] at he
    rcases he with he | he
    · exact fetch_trace_shape pull c snap fi b e he
    · exact ih _ e he

theorem blocks_all_false_of_mem_false {oks : List Bool} (h : false ∈ oks) :
    oks.all (fun x => x) = false := by
  cases hA : oks.all (fun x => x) with
  | false => rfl
  | true => exact absurd (List.all_eq_true.mp hA false h) (by simp)

/-- C1: in the background download worker's per-job processing, if any
block fetch returns `false` the trace is just the snapshot acquisition,
the block-fetch effects and the deferred `Done` — no `UpdateOne` and no
`LocalIndexUpdated` event; conversely those occur only when every block
fetch succeeded. -/
theorem worker_all_or_nothing :
    ∀ (snap : Snapshot) (pull : Pull) (folderId : List Char) (seqAfter : Int)
      (c : Cache) (job : List Char) (fi : FileInfo), snap.getGlobal job = some fi →
    (false ∈ (processBlocks pull snap fi c fi.blocks).2.2 →
      (processOneJob (some snap) pull folderId seqAfter c job).2 =
        Eff.snapAcquire :: (processBlocks pull snap fi c fi.blocks).2.1 ++
          [Eff.jobDone job] ∧
      (∀ e ∈ (processOneJob (some snap) pull folderId seqAfter c job).2,
        (∀ n, e ≠ Eff.updateOne n) ∧ (∀ p, e ≠ Eff.emit p))) ∧
    ((∃ e ∈ (processOneJob (some snap) pull folderId seqAfter c job).2,
        (∃ n, e = Eff.updateOne n) ∨ (∃ p, e = Eff.emit p)) →
      (processBlocks pull snap fi c fi.blocks).2.2.all (fun x => x) = true) := by
  intro snap pull folderId seqAfter c job fi hg
  have hshape := blocks_trace_shape pull snap fi fi.blocks c
  constructor
  · intro hfail
    have hall := blocks_all_false_of_mem_false hfail
    have htr : (processOneJob (some snap) pull folderId seqAfter c job).2 =
        Eff.snapAcquire :: (processBlocks pull snap fi c fi.blocks).2.1 ++
          [Eff.jobDone job] := by
      simp [processOneJob, hg, hall]
    refine ⟨htr, ?_⟩
    intro e he
    rw [htr] at he
    rcases List.mem_cons.mp he with rfl | he'
    · exact ⟨fun n h => Eff.noConfusion h, fun p h => Eff.noConfusion h⟩
    · rcases List.mem_append.mp he' with hin | hin
      · have := hshape e hin
        constructor
        · intro n h; subst h; simp [isFetchEff] at this
        · intro p h; subst h; simp [isFetchEff] at this
      · simp only [List.mem_singleton] at hin
        subst hin
        exact ⟨fun n h => Eff.noConfusion h, fun p h => Eff.noConfusion h⟩
  · rintro ⟨e, he, hform⟩
    cases hall : (processBlocks pull snap fi c fi.blocks).2.2.all (fun x => x) with
    | true => rfl
    | false =>
      exfalso
      have htr : (processOneJob (some snap) pull folderId seqAfter c job).2 =
          Eff.snapAcquire :: (processBlocks pull snap fi c fi.blocks).2.1 ++
            [Eff.jobDone job] := by
        simp [processOneJob, hg, hall]
      rw [htr] at he
      rcases List.mem_cons.mp he with rfl | he'
      · rcases hform with ⟨n, h⟩ | ⟨p, h⟩ <;> exact Eff.noConfusion h
      · rcases List.mem_append.mp he' with hin | hin
        · have := hshape e hin
          rcases hform with ⟨n, h⟩ | ⟨p, h⟩ <;> subst h <;> simp [isFetchEff] at this
        · simp only [List.mem_singleton] at hin
          subst hin
          rcases hform with ⟨n, h⟩ | ⟨p, h⟩ <;> exact Eff.noConfusion h

theorem worker_all_or_nothing_witness :
    (processOneJob
        (some ⟨fun n => if n = ['f'] then some ⟨['f'], [⟨[2]⟩, ⟨[3]⟩]⟩ else none, []⟩)
        (fun _ _ b => if b.hash = [2] then none else some [5]) ['x'] 4
        (fun _ => none) ['f']).2 =
      Eff.snapAcquire ::
        (processBlocks (fun _ _ b => if b.hash = [2] then none else some [5])
          ⟨fun n => if n = ['f'] then some ⟨['f'], [⟨[2]⟩, ⟨[3]⟩]⟩ else none, []⟩
          ⟨['f'], [⟨[2]⟩, ⟨[3]⟩]⟩ (fun _ => none) [⟨[2]⟩, ⟨[3]⟩]).2.1 ++
        [Eff.jobDone ['f']] :=
  ((worker_all_or_nothing
      ⟨fun n => if n = ['f'] then some ⟨['f'], [⟨[2]⟩, ⟨[3]⟩]⟩ else none, []⟩
      (fun _ _ b => if b.hash = [2] then none else some [5]) ['x'] 4
      (fun _ => none) ['f'] ⟨['f'], [⟨[2]⟩, ⟨[3]⟩]⟩ (by decide)).1 (by decide)).1

/-- C6: whenever the per-job processing emits a `LocalIndexUpdated` event,
the trace is the success-path trace in which the event strictly follows the
`UpdateOne` (and the sequence read), no `UpdateOne` occurs among the
block-fetch effects before it, and the payload is exactly
`{folder, items 1, filenames [name], sequence s, version s}` with `s` the
sequence read after the `UpdateOne`. -/
theorem worker_event_after_update :
    (∀ (pull : Pull) (folderId : List Char) (seqAfter : Int) (c : Cache) (job : List Char),
      (processOneJob none pull folderId seqAfter c job).2 = [Eff.jobDone job]) ∧
    (∀ (snap : Snapshot) (pull : Pull) (folderId : List Char) (seqAfter : Int)
        (c : Cache) (job : List Char), snap.getGlobal job = none →
      (processOneJob (some snap) pull folderId seqAfter c job).2 =
        [Eff.snapAcquire, Eff.jobDone job]) ∧
    (∀ (snap : Snapshot) (pull : Pull) (folderId : List Char) (seqAfter : Int)
        (c : Cache) (job : List Char) (fi : FileInfo) (p : EventPayload),
      snap.getGlobal job = some fi →
      Eff.emit p ∈ (processOneJob (some snap) pull folderId seqAfter c job).2 →
      p = ⟨folderId, 1, [fi.name], seqAfter, seqAfter⟩ ∧
      (processOneJob (some snap) pull folderId seqAfter c job).2 =
        Eff.snapAcquire :: (processBlocks pull snap fi c fi.blocks).2.1 ++
          [Eff.updateOne fi.name, Eff.seqRead, Eff.emit p, Eff.jobDone job] ∧
      (∀ e ∈ (processBlocks pull snap fi c fi.blocks).2.1, ∀ n, e ≠ Eff.updateOne n)) := by
  refine ⟨?_, ?_, ?_⟩
  · intro pull folderId seqAfter c job; rfl
  · intro snap pull folderId seqAfter c job hg
    simp [processOneJob, hg]
  · intro snap pull folderId seqAfter c job fi p hg hmem
    have hshape := blocks_trace_shape pull snap fi fi.blocks c
    cases hall : (processBlocks pull snap fi c fi.blocks).2.2.all (fun x => x) with
    | false =>
      exfalso
      have htr : (processOneJob (some snap) pull folderId seqAfter c job).2 =
          Eff.snapAcquire :: (processBlocks pull snap fi c fi.blocks).2.1 ++
            [Eff.jobDone job] := by
        simp [processOneJob, hg, hall]
      rw [htr] at hmem
      rcases List.mem_cons.mp hmem with h | h
      · exact Eff.noConfusion h
      · rcases List.mem_append.mp h with hin | hin
        · have := hshape _ hin; simp [isFetchEff] at this
        · simp only [List.mem_singleton] at hin; exact Eff.noConfusion hin
    | true =>
      have htr : (processOneJob (some snap) pull folderId seqAfter c job).2 =
          Eff.snapAcquire :: (processBlocks pull snap fi c fi.blocks).2.1 ++
            [Eff.updateOne fi.name, Eff.seqRead,
              Eff.emit ⟨folderId, 1, [fi.name], seqAfter, seqAfter⟩,
              Eff.jobDone job] := by
        simp [processOneJob, hg, hall]
      have hp : p = ⟨folderId, 1, [fi.name], seqAfter, seqAfter⟩ := by
        rw [htr] at hmem
        rcases List.mem_cons.mp hmem with h | h
        · exact absurd h (by simp)
        · rcases List.mem_append.mp h with hin | hin
          · have := hshape _ hin; simp [isFetchEff] at this
          · rcases List.mem_cons.mp hin with h1 | h1
            · exact absurd h1 (by simp)
            · rcases List.mem_cons.mp h1 with h2 | h2
              · exact absurd h2 (by simp)
              · rcases List.mem_cons.mp h2 with h3 | h3
                · exact (Eff.emit.injEq p _).mp h3
                · simp only [List.mem_singleton] at h3
                  exact absurd h3 (by simp)
      subst hp
      refine ⟨rfl, htr, ?_⟩
      intro e he n hcontra
      have := hshape e he
      subst hcontra
      simp [isFetchEff] at this

theorem worker_event_after_update_witness :
    (processOneJob (some ⟨fun n => if n = ['f'] then some ⟨['f'], [⟨[2]⟩]⟩ else none, []⟩)
        (fun _ _ _ => some [5]) ['x'] 4 (fun _ => none) ['f']).2 =
      Eff.snapAcquire ::
        (processBlocks (fun _ _ _ => some [5])
          ⟨fun n => if n = ['f'] then some ⟨['f'], [⟨[2]⟩]⟩ else none, []⟩
          ⟨['f'], [⟨[2]⟩]⟩ (fun _ => none) [⟨[2]⟩]).2.1 ++
        [Eff.updateOne ['f'], Eff.seqRead,
          Eff.emit ⟨['x'], 1, [['f']], 4, 4⟩, Eff.jobDone ['f']] :=
  (worker_event_after_update.2.2
    ⟨fun n => if n = ['f'] then some ⟨['f'], [⟨[2]⟩]⟩ else none, []⟩
    (fun _ _ _ => some [5]) ['x'] 4 (fun _ => none) ['f'] ⟨['f'], [⟨[2]⟩]⟩
    ⟨['x'], 1, [['f']], 4, 4⟩ (by decide) (by decide)).2.1

/-- C8: every popped job is marked done on every exit path of its
processing (the trace always ends with `Done(job)`); when the name is
absent from the global index the job is discarded silently — cache, index
and event stream untouched; and in the queue a popped job whose processing
finished is absent: neither pending nor in-progress. -/
theorem worker_job_always_done :
    (∀ (snapRes : Option Snapshot) (pull : Pull) (folderId : List Char) (seqAfter : Int)
        (c : Cache) (job : List Char),
      (processOneJob snapRes pull folderId seqAfter c job).2.getLast? =
        some (Eff.jobDone job)) ∧
    (∀ (snap : Snapshot) (pull : Pull) (folderId : List Char) (seqAfter : Int)
        (c : Cache) (job : List Char), snap.getGlobal job = none →
      processOneJob (some snap) pull folderId seqAfter c job =
        (c, [Eff.snapAcquire, Eff.jobDone job])) ∧
    (∀ (q : JobQueue) (n : List Char) (q' : JobQueue), (pendingNames q).Nodup →
      Pop q = some (n, q') →
      n ∉ pendingNames (Done q' n) ∧ n ∉ (Done q' n).inProgress) := by
  refine ⟨?_, ?_, ?_⟩
  · intro snapRes pull folderId seqAfter c job
    cases snapRes with
    | none => rfl
    | some snap =>
      cases hg : snap.getGlobal job with
      | none => simp [processOneJob, hg]
      | some fi =>
        cases hall : (processBlocks pull snap fi c fi.blocks).2.2.all (fun x => x) with
        | true =>
          have htr : (processOneJob (some snap) pull folderId seqAfter c job).2 =
              (Eff.snapAcquire :: (processBlocks pull snap fi c fi.blocks).2.1 ++
                [Eff.updateOne fi.name, Eff.seqRead,
                  Eff.emit ⟨folderId, 1, [fi.name], seqAfter, seqAfter⟩]) ++
                [Eff.jobDone job] := by
            simp [processOneJob, hg, hall]
          rw [htr, List.getLast?_concat]
        | false =>
          have htr : (processOneJob (some snap) pull folderId seqAfter c job).2 =
              (Eff.snapAcquire :: (processBlocks pull snap fi c fi.blocks).2.1) ++
                [Eff.jobDone job] := by
            simp [processOneJob, hg, hall]
          rw [htr, List.getLast?_concat]
  · intro snap pull folderId seqAfter c job hg
    simp [processOneJob, hg]
  · intro q n q' hnd hpop
    unfold Pop at hpop
    cases hq : q.pending with
    | nil => rw [hq] at hpop; exact Option.noConfusion hpop
    | cons j rest =>
      rw [hq] at hpop
      simp only [Option.some.injEq, Prod.mk.injEq] at hpop
      obtain ⟨rfl, rfl⟩ := hpop
      constructor
      · have : pendingNames (Done ⟨rest, j.name :: q.inProgress⟩ j.name) =
            rest.map (fun jb => jb.name) := rfl
        rw [this]
        have hnd' : (j.name :: rest.map (fun jb => jb.name)).Nodup := by
          have : pendingNames q = j.name :: rest.map (fun jb => jb.name) := by
            simp [pendingNames, hq]
          rwa [this] at hnd
        exact (List.nodup_cons.mp hnd').1
      · intro hmem
        unfold Done at hmem
        simp only [List.mem_filter, decide_eq_true_eq] at hmem
        exact hmem.2 rfl

theorem worker_job_always_done_witness :
    processOneJob (some ⟨fun _ => none, []⟩) (fun _ _ _ => none) ['x'] 0
        (fun _ => none) ['g'] =
      ((fun _ => none), [Eff.snapAcquire, Eff.jobDone ['g']]) ∧
    ['a'] ∉ pendingNames (Done ⟨[], [['a']]⟩ ['a']) ∧
    ['a'] ∉ (Done ⟨[], [['a']]⟩ ['a']).inProgress :=
  ⟨worker_job_always_done.2.1 ⟨fun _ => none, []⟩ (fun _ _ _ => none) ['x'] 0
      (fun _ => none) ['g'] rfl,
    (worker_job_always_done.2.2 ⟨[⟨['a'], 1, 2⟩], []⟩ ['a'] ⟨[], [['a']]⟩
      (by decide) (by decide)).1,
    (worker_job_always_done.2.2 ⟨[⟨['a'], 1, 2⟩], []⟩ ['a'] ⟨[], [['a']]⟩
      (by decide) (by decide)).2⟩

/-- C3 is refuted by the code: neither `Scan` nor the worker's per-job
processing ever releases the snapshot it acquires from `fset.Snapshot()` —
no exit path contains a release, as shown both in general and on concrete
runs whose full traces contain the acquisition but no release. -/
theorem snapshot_acquired_never_released :
    (∀ snapRes : Option Snapshot, (Scan snapRes).count Eff.snapRelease = 0) ∧
    (∀ (snapRes : Option Snapshot) (pull : Pull) (folderId : List Char) (seqAfter : Int)
        (c : Cache) (job : List Char),
      ((processOneJob snapRes pull folderId seqAfter c job).2).count Eff.snapRelease = 0) ∧
    Scan (some ⟨fun _ => none, [⟨['d'], 0, 0, true⟩, ⟨['f'], 1, 2, false⟩]⟩) =
      [Eff.snapAcquire, Eff.requestBgDl ['f'] 1 2] ∧
    (processOneJob (some ⟨fun _ => none, []⟩) (fun _ _ _ => none) ['x'] 0
        (fun _ => none) ['j']).2 = [Eff.snapAcquire, Eff.jobDone ['j']] := by
  refine ⟨?_, ?_, by decide, by decide⟩
  · intro snapRes
    rw [List.count_eq_zero]
    cases snapRes with
    | none => simp [Scan]
    | some snap =>
      simp only [Scan, List.mem_cons]
      rintro (h | h)
      · exact Eff.noConfusion h
      · rw [List.mem_flatten] at h
        obtain ⟨l, hl, hel⟩ := h
        rw [List.mem_map] at hl
        obtain ⟨fi, _, rfl⟩ := hl
        cases hd : fi.isDirectory with
        | true =>
          rw [if_pos hd] at hel
          cases hg : snap.getGlobal fi.name with
          | some g => rw [hg] at hel; simp at hel
          | none => rw [hg] at hel; simp at hel
        | false =>
          rw [if_neg (by simp [hd])] at hel
          simp at hel
  · intro snapRes pull folderId seqAfter c job
    rw [List.count_eq_zero]
    cases snapRes with
    | none => simp [processOneJob]
    | some snap =>
      cases hg : snap.getGlobal job with
      | none => simp [processOneJob, hg]
      | some fi =>
        have hshape := blocks_trace_shape pull snap fi fi.blocks c
        intro hmem
        cases hall : (processBlocks pull snap fi c fi.blocks).2.2.all (fun x => x) with
        | true =>
          have htr : (processOneJob (some snap) pull folderId seqAfter c job).2 =
              Eff.snapAcquire :: (processBlocks pull snap fi c fi.blocks).2.1 ++
                [Eff.updateOne fi.name, Eff.seqRead,
                  Eff.emit ⟨folderId, 1, [fi.name], seqAfter, seqAfter⟩,
                  Eff.jobDone job] := by
            simp [processOneJob, hg, hall]
          rw [htr] at hmem
          rcases List.mem_cons.mp hmem with h | h
          · exact Eff.noConfusion h
          · rcases List.mem_append.mp h with hin | hin
            · have := hshape _ hin; simp [isFetchEff] at this
            · simp at hin
        | false =>
          have htr : (processOneJob (some snap) pull folderId seqAfter c job).2 =
              Eff.snapAcquire :: (processBlocks pull snap fi c fi.blocks).2.1 ++
                [Eff.jobDone job] := by
            simp [processOneJob, hg, hall]
          rw [htr] at hmem
          rcases List.mem_cons.mp hmem with h | h
          · exact Eff.noConfusion h
          · rcases List.mem_append.mp h with hin | hin
            · have := hshape _ hin; simp [isFetchEff] at this
            · simp at hin

theorem pushIfNew_dup_stable (q : JobQueue) (name : List Char) (size modTime : Int)
    (h : (PushIfNew q name size modTime).2 = false) :
    (PushIfNew q name size modTime).1 = q := by
  by_cases hc : name ∈ pendingNames q ∨ name ∈ q.inProgress
  · simp [PushIfNew, hc]
  · simp [PushIfNew, hc] at h

theorem trySendWakeup_le_one (n : Nat) (h : n ≤ 1) : trySendWakeup n ≤ 1 := by
  unfold trySendWakeup
  split <;> omega

/-- C7: `RequestBackgroundDownload` is idempotent for duplicates — when
`PushIfNew` reports the name as already pending or in-progress the call
leaves the state unchanged and performs neither sort nor wakeup send; only
a genuinely new entry triggers the sort and the non-blocking send on the
capacity-1 channel, so any sequence of calls leaves at most one wakeup
token observable. -/
theorem requestBackgroundDownload_idempotent :
    (∀ (o : PullOrder) (st : VFQState) (name : List Char) (size modTime : Int),
      (PushIfNew st.queue name size modTime).2 = false →
      RequestBackgroundDownload o st name size modTime = (st, [])) ∧
    (∀ (o : PullOrder) (st : VFQState) (name : List Char) (size modTime : Int),
      (PushIfNew st.queue name size modTime).2 = true →
      RequestBackgroundDownload o st name size modTime =
        (⟨SortAccordingToConfig o (PushIfNew st.queue name size modTime).1,
          trySendWakeup st.chanTokens⟩, [QEff.sorted, QEff.wakeupAttempt])) ∧
    (∀ (o : PullOrder) (st : VFQState) (reqs : List ((List Char) × Int × Int)),
      st.chanTokens ≤ 1 →
      (reqs.foldl (fun s r => (RequestBackgroundDownload o s r.1 r.2.1 r.2.2).1) st).chanTokens
        ≤ 1) := by
  refine ⟨?_, ?_, ?_⟩
  · intro o st name size modTime h
    have hst := pushIfNew_dup_stable st.queue name size modTime h
    simp only [RequestBackgroundDownload, h, hst]
    rfl
  · intro o st name size modTime h
    simp [RequestBackgroundDownload, h]
  · intro o st reqs
    induction reqs generalizing st with
    | nil => intro h; exact h
    | cons r rest ih =>
      intro h
      refine ih _ ?_
      unfold RequestBackgroundDownload
      cases hp : (PushIfNew st.queue r.1 r.2.1 r.2.2).2 with
      | true => simpa [hp] using trySendWakeup_le_one st.chanTokens h
      | false => simpa [hp] using h

theorem requestBackgroundDownload_idempotent_witness :
    RequestBackgroundDownload PullOrder.alphabetic
        ⟨⟨[⟨['a'], 1, 2⟩], []⟩, 1⟩ ['a'] 1 2 = (⟨⟨[⟨['a'], 1, 2⟩], []⟩, 1⟩, []) ∧
    RequestBackgroundDownload PullOrder.alphabetic
        ⟨⟨[⟨['b'], 1, 2⟩], []⟩, 1⟩ ['a'] 3 4 =
      (⟨SortAccordingToConfig PullOrder.alphabetic
          (PushIfNew ⟨[⟨['b'], 1, 2⟩], []⟩ ['a'] 3 4).1,
        trySendWakeup 1⟩, [QEff.sorted, QEff.wakeupAttempt]) ∧
    (([(['a'], 1, 2), (['b'], 3, 4), (['a'], 1, 2)] :
        List ((List Char) × Int × Int)).foldl
      (fun s r =>
        (RequestBackgroundDownload PullOrder.alphabetic s r.1 r.2.1 r.2.2).1)
      ⟨⟨[], []⟩, 0⟩).chanTokens ≤ 1 :=
  ⟨requestBackgroundDownload_idempotent.1 PullOrder.alphabetic
      ⟨⟨[⟨['a'], 1, 2⟩], []⟩, 1⟩ ['a'] 1 2 (by decide),
    requestBackgroundDownload_idempotent.2.1 PullOrder.alphabetic
      ⟨⟨[⟨['b'], 1, 2⟩], []⟩, 1⟩ ['a'] 3 4 (by decide),
    requestBackgroundDownload_idempotent.2.2 PullOrder.alphabetic
      ⟨⟨[], []⟩, 0⟩ [(['a'], 1, 2), (['b'], 3, 4), (['a'], 1, 2)] (by decide)⟩

theorem isPrefixOfL_append (p r : List Char) : isPrefixOfL p (p ++ r) = true := by
  induction p with
  | nil => rfl
  | cons a as ih => simp [isPrefixOfL, ih]

theorem isPrefixOfL_of_append :
    ∀ (p x y : List Char), isPrefixOfL p (x ++ y) = true → p.length ≤ x.length →
      isPrefixOfL p x = true
  | [], _, _, _, _ => rfl
  | _ :: _, [], _, _, hl => by simp at hl
  | a :: as, c :: cs, y, h, hl => by
    simp only [List.cons_append, isPrefixOfL] at h ⊢
    by_cases hac : a = c
    · rw [if_pos hac] at h ⊢
      refine isPrefixOfL_of_append as cs y h ?_
      simp only [List.length_cons] at hl
      omega
    · rw [if_neg hac] at h
      exact absurd h (by simp)

theorem breakOnSep_pos (sep s : List Char) (h : isPrefixOfL sep s = true) :
    breakOnSep sep s = some ([], s.drop sep.length) := by
  cases s <;> simp [breakOnSep, h]

theorem properSubOccur_cons (sep : List Char) (c : Char) (s : List Char)
    (h : properSubOccur sep (c :: s) = false) : properSubOccur sep s = false := by
  unfold properSubOccur at *
  rw [List.tails_cons, List.any_cons] at h
  exact (Bool.or_eq_false_iff.mp h).2

theorem occursIn_cons (sep : List Char) (c : Char) (s : List Char)
    (h : occursIn sep (c :: s) = false) : occursIn sep s = false := by
  unfold occursIn at *
  rw [List.tails_cons, List.any_cons] at h
  exact (Bool.or_eq_false_iff.mp h).2

theorem breakOnSep_boundary (sep : List Char) :
    ∀ (a b : List Char), properSubOccur sep (a ++ sep) = false →
      breakOnSep sep (a ++ (sep ++ b)) = some (a, b) := by
  intro a
  induction a with
  | nil =>
    intro b _
    simp only [List.nil_append]
    rw [breakOnSep_pos sep (sep ++ b) (isPrefixOfL_append sep b), List.drop_left]
  | cons c a' ih =>
    intro b hocc
    have hfalse : isPrefixOfL sep (c :: (a' ++ (sep ++ b))) = false := by
      cases hb2 : isPrefixOfL sep (c :: (a' ++ (sep ++ b))) with
      | false => rfl
      | true =>
        exfalso
        have h1 : isPrefixOfL sep (((c :: a') ++ sep) ++ b) = true := by
          rw [List.append_assoc]
          exact hb2
        have h2 : isPrefixOfL sep ((c :: a') ++ sep) = true :=
          isPrefixOfL_of_append sep ((c :: a') ++ sep) b h1
            (by simp [List.length_append]; omega)
        have hw : ((c :: a') ++ sep).tails.any
            (fun t => isPrefixOfL sep t && decide (sep.length < t.length)) = true := by
          rw [List.any_eq_true]
          refine ⟨(c :: a') ++ sep, (List.mem_tails _ _).mpr (List.suffix_refl _), ?_⟩
          simp only [Bool.and_eq_true, decide_eq_true_eq, List.length_append,
            List.length_cons, List.cons_append]
          exact ⟨h2, by omega⟩
        unfold properSubOccur at hocc
        rw [hocc] at hw
        exact Bool.noConfusion hw
    show breakOnSep sep (c :: (a' ++ (sep ++ b))) = some (c :: a', b)
    rw [breakOnSep, if_neg (by simp [hfalse])]
    rw [ih b (properSubOccur_cons sep c (a' ++ sep) hocc)]
    rfl

theorem breakOnSep_none (sep : List Char) :
    ∀ (b : List Char), occursIn sep b = false → breakOnSep sep b = none := by
  intro b
  induction b with
  | nil =>
    intro h
    have h0 : isPrefixOfL sep [] = false := by
      simpa [occursIn] using h
    simp [breakOnSep, h0]
  | cons c rest ih =>
    intro h
    have h0 : isPrefixOfL sep (c :: rest) = false := by
      unfold occursIn at h
      rw [List.tails_cons, List.any_cons] at h
      exact (Bool.or_eq_false_iff.mp h).1
    rw [breakOnSep, if_neg (by simp [h0]), ih (occursIn_cons sep c rest h)]
    rfl

theorem splitN_no_occ (sep b : List Char) (h : breakOnSep sep b = none) :
    ∀ f, splitN sep f b = [b] := by
  intro f
  cases f with
  | zero => rfl
  | succ g => simp [splitN, h]

theorem splitN_succ_some (sep s x y : List Char) (f : Nat)
    (h : breakOnSep sep s = some (x, y)) : splitN sep (f + 1) s = x :: splitN sep f y := by
  simp [splitN, h]

theorem splitOnSep_boundary (sep a b : List Char)
    (ha : properSubOccur sep (a ++ sep) = false) (hb : occursIn sep b = false) :
    splitOnSep sep (a ++ (sep ++ b)) = [a, b] := by
  unfold splitOnSep
  rw [splitN_succ_some sep _ a b _ (breakOnSep_boundary sep a b ha),
    splitN_no_occ sep b (breakOnSep_none sep b hb)]

/-- C5: `Serve`'s backend-URL resolution — a folder path
`:virtual:<blobURL>:mount_at:<mountPoint>` (with a unique, well-placed
separator) yields blob URL and mount path; a `:virtual:` path without a
`:mount_at:` separator is a configuration error; a path without the
`:virtual:` prefix yields the default
`file://<path>_BlobStorage?no_tmp_dir=yes` blob URL and mount path
`<path>R`. -/
theorem serve_backend_url_resolution :
    (∀ a b : List Char, properSubOccur mountSep (a ++ mountSep) = false →
      occursIn mountSep b = false →
      serveResolveBackend (vPref ++ (a ++ (mountSep ++ b))) = Except.ok (a, b)) ∧
    (∀ vd : List Char, occursIn mountSep vd = false →
      serveResolveBackend (vPref ++ vd) =
        Except.error ("missing \":mount_at:\" in virtual descriptor".data)) ∧
    (∀ p : List Char, isPrefixOfL vPref p = false →
      serveResolveBackend p =
        Except.ok ("file://".data ++ (p ++ "_BlobStorage".data) ++ "?no_tmp_dir=yes".data,
          p ++ "R".data)) := by
  refine ⟨?_, ?_, ?_⟩
  · intro a b ha hb
    have hcut : cutPref vPref (vPref ++ (a ++ (mountSep ++ b))) =
        (a ++ (mountSep ++ b), true) := by
      unfold cutPref
      rw [if_pos (isPrefixOfL_append vPref _), List.drop_left]
    simp only [serveResolveBackend, hcut, if_true, splitOnSep_boundary mountSep a b ha hb]
  · intro vd h
    have hcut : cutPref vPref (vPref ++ vd) = (vd, true) := by
      unfold cutPref
      rw [if_pos (isPrefixOfL_append vPref _), List.drop_left]
    have hsplit : splitOnSep mountSep vd = [vd] := by
      unfold splitOnSep
      exact splitN_no_occ mountSep vd (breakOnSep_none mountSep vd h) _
    simp only [serveResolveBackend, hcut, if_true, hsplit]
  · intro p h
    simp [serveResolveBackend, cutPref, h]

theorem serve_backend_url_resolution_witness :
    serveResolveBackend (vPref ++ ("mem://x".data ++ (mountSep ++ "/tmp/m".data))) =
      Except.ok ("mem://x".data, "/tmp/m".data) ∧
    serveResolveBackend (vPref ++ "mem://x".data) =
      Except.error ("missing \":mount_at:\" in virtual descriptor".data) ∧
    serveResolveBackend "/tmp/f".data =
      Except.ok ("file://".data ++ ("/tmp/f".data ++ "_BlobStorage".data) ++
          "?no_tmp_dir=yes".data,
        "/tmp/f".data ++ "R".data) :=
  ⟨serve_backend_url_resolution.1 "mem://x".data "/tmp/m".data (by decide) (by decide),
    serve_backend_url_resolution.2.1 "mem://x".data (by decide),
    serve_backend_url_resolution.2.2 "/tmp/f".data (by decide)⟩

end SyncthingVF
